import Mathlib

/-
Verification of the path/merge engine of the xjson package (xjson.go):
a shallow embedding of the dynamically-typed JSON tree, of the deep
`Get` / `SetF` / `Set` operations, of `Store`'s path computation
(including models of the `path/filepath` and `strings` helpers it uses),
and of the entry-point loader `DoReadAndStore` over an abstracted
filesystem, together with theorems settling the specification claims.
-/

namespace Xjson

/-- Dynamic (runtime) types of the JSON-like values handled by the
package: `map[string]any`, `[]T` (tagged with its element type, since Go
slice type assertions are invariant), `string`, numbers, `bool`, and the
"dynamic type" of a nil interface (`tNil`, what `%T` prints as `<nil>`);
`tAny` stands for the interface type `any` used to instantiate the
generic functions. -/
inductive Ty where
  | tAny
  | tNil
  | tMap
  | tStr
  | tNum
  | tBool
  | tArr (elem : Ty)
  deriving DecidableEq

/-- A Go `any` value as produced by `encoding/json` unmarshaling or
built by hand: `nil`, `bool`, a number, `string`, a typed slice `[]T`
(tagged with its element type), or a `map[string]any`. Maps are
modelled as association lists with the Go map's content; Go maps are
unordered, the list order is the canonical representation used
throughout. -/
inductive Value where
  | vNull
  | vBool (b : Bool)
  | vNum (n : Int)
  | vStr (s : String)
  | vArr (elem : Ty) (elems : List Value)
  | vMap (entries : List (String × Value))

/-- The `map[string]any` representation. -/
abbrev AList := List (String × Value)

/-- Two-valued Go map read `q, ok := p[x]`. -/
def lookupA : AList → String → Option Value
  | [], _ => none
  | (k, w) :: rest, x => if k = x then some w else lookupA rest x

/-- One-valued Go map read `p[x]`: the zero value of `any` (nil) when
the key is absent. -/
def lookupD (p : AList) (x : String) : Value :=
  (lookupA p x).getD .vNull

/-- Go map write `p[x] = v`: replaces the binding in place when the key
is present, appends it otherwise. -/
def insertA : AList → String → Value → AList
  | [], x, v => [(x, v)]
  | (k, w) :: rest, x, v =>
    if k = x then (k, v) :: rest else (k, w) :: insertA rest x v

/-- Shallow union of map `w` into
map `q` (keys of `w` win on collision). -/
def unionInto (q w : AList) : AList :=
  w.foldl (fun acc kv => insertA acc kv.1 kv.2) q

/-- The dynamic type of a value, as Go's `%T` sees it. -/
def typeOf : Value → Ty
  | .vNull => .tNil
  | .vBool _ => .tBool
  | .vNum _ => .tNum
  | .vStr _ => .tStr
  | .vArr e _ => .tArr e
  | .vMap _ => .tMap

/-- Go type assertion `q.(T)`: always fails on a nil interface value;
`any` matches every non-nil value; a slice assertion `q.([]T)` requires
the exact element type (Go slices are invariant). -/
def assertTy : Ty → Value → Bool
  | _, .vNull => false
  | .tAny, _ => true
  | .tMap, .vMap _ => true
  | .tStr, .vStr _ => true
  | .tNum, .vNum _ => true
  | .tBool, .vBool _ => true
  | .tArr e, .vArr f _ => decide (e = f)
  | _, _ => false

/-- Go type assertion `q.(map[string]any)` in two-valued form. -/
def asMap : Value → Option AList
  | .vMap m => some m
  | _ => none

/-- Go type assertion `q.([]T)` in two-valued form. -/
def asArr (t : Ty) : Value → Option (List Value)
  | .vArr e l => if e = t then some l else none
  | _ => none

/-- The errors produced by the package, in structured form:
`ErrBadPath` and `ErrBadType` are wrapped with the offending path
(split form of the `PathString` joined with dots) and, for `badType`,
the actual and expected dynamic types; `rootNotAMap` is `Store`'s
"root isn't a hash"; `relError` is `filepath.Rel`'s failure;
`notExist` and `decodeError` stand for the file layer's
`os.ErrNotExist` and JSON syntax errors; `joined` is `errors.Join`. -/
inductive Err where
  | badPath (path : List String)
  | badType (path : List String) (actual expected : Ty)
  | rootNotAMap
  | relError (basepath targpath : String)
  | notExist (path : String)
  | decodeError (path : String)
  | joined (e0 e1 : Err)
  deriving DecidableEq

/-- SetFlags bit `MergeMaps = 1 << 0`. -/
def MergeMaps : Nat := 1

/-- SetFlags bit `AppendArrays = 1 << 1`. -/
def AppendArrays : Nat := 2

/-- SetFlags bit `ForceThrough = 1 << 2`. -/
def ForceThrough : Nat := 4

/-- The flag test `flags & m == m`. -/
def hasFlag (flags m : Nat) : Bool := flags &&& m == m

/-- The loop of `Get[T](db, xs)` in prefix-accumulating form: `pre` is
the prefix of the original path consumed so far, `p` the current map.
The `[]` arm is the loop's fall-through `BadPath(PathString(xs))`
return, reached only when the remaining path is empty, in which case
`pre` is exactly the original `xs`. At every segment the two-valued
read comes first; at the final segment the value is type-asserted to
`T`; at a non-final segment it must assert to `map[string]any`. -/
def GetAux (t : Ty) : List String → AList → List String → Except Err Value
  | pre, _, [] => .error (.badPath pre)
  | pre, p, [x] =>
    match lookupA p x with
    | none => .error (.badPath (pre ++ [x]))
    | some q =>
      if assertTy t q then .ok q
      else .error (.badType (pre ++ [x]) (typeOf q) t)
  | pre, p, x :: y :: rest =>
    match lookupA p x with
    | none => .error (.badPath (pre ++ [x]))
    | some q =>
      match asMap q with
      | some m => GetAux t (pre ++ [x]) m (y :: rest)
      | none => .error (.badPath (pre ++ [x]))

/-- Deep get `Get[T](db, xs)` of xjson.go. -/
def Get (t : Ty) (db : AList) (xs : List String) : Except Err Value :=
  GetAux t [] db xs

/-- State-threading form of the `Get` loop: identical walk, but the
traversed tree is passed along explicitly and the (possibly rewritten)
tree is returned next to the result, so that the absence of mutation
can be stated. Descending into a submap re-seats it in the parent on
the way out, mirroring that in Go the parent keeps pointing at the
submap the walk held. -/
def GetStAux (t : Ty) : List String → AList → List String →
    Except Err Value × AList
  | pre, p, [] => (.error (.badPath pre), p)
  | pre, p, [x] =>
    (match lookupA p x with
     | none => .error (.badPath (pre ++ [x]))
     | some q =>
       if assertTy t q then .ok q
       else .error (.badType (pre ++ [x]) (typeOf q) t), p)
  | pre, p, x :: y :: rest =>
    match lookupA p x with
    | none => (.error (.badPath (pre ++ [x])), p)
    | some q =>
      match asMap q with
      | some m =>
        ((GetStAux t (pre ++ [x]) m (y :: rest)).1,
         insertA p x (.vMap (GetStAux t (pre ++ [x]) m (y :: rest)).2))
      | none => (.error (.badPath (pre ++ [x])), p)

/-- Variant of `Get[T](db, xs)` with the tree threaded through, for the frame
(no-mutation) claim. -/
def GetSt (t : Ty) (db : AList) (xs : List String) :
    Except Err Value × AList :=
  GetStAux t [] db xs

/-- The `MergeMaps` step of `SetF`'s final segment: when the flag is
set and both the new value `v` and the existing `p[x]` assert to
`map[string]any`, merge `v` into the existing map; `none` when the
step does not apply. -/
def mergeStep (flags : Nat) (p : AList) (x : String) (v : Value) :
    Option AList :=
  if hasFlag flags MergeMaps then
    match asMap v, asMap (lookupD p x) with
    | some w, some q => some (insertA p x (.vMap (unionInto q w)))
    | _, _ => none
  else none

/-- The `AppendArrays` step of `SetF`'s final segment: when the flag
is set and both the new value `v` and the existing `p[x]` assert to
`[]T`, replace `p[x]` by the concatenation; `none` when the step does
not apply. -/
def appendStep (t : Ty) (flags : Nat) (p : AList) (x : String)
    (v : Value) : Option AList :=
  if hasFlag flags AppendArrays then
    match asArr t v, asArr t (lookupD p x) with
    | some w, some q => some (insertA p x (.vArr t (q ++ w)))
    | _, _ => none
  else none

/-- The loop of `SetF[T](db, xs, v, flags)` in prefix-accumulating,
state-threading form (`pre` is the consumed prefix, `p` the current
map; the pair returned is Go's error next to the map as left by the
call). The `[]` arm is the loop's fall-through `return nil` on an
empty path. At the final segment the `MergeMaps` step is tried, then
the `AppendArrays` step, then the plain write. At an intermediate
segment a missing key gets a fresh empty map; an existing submap is
descended into; an existing non-map value is either replaced by a
fresh empty map (`ForceThrough`) or reported as `ErrBadPath` wrapping
the prefix inclusive of the failing segment. -/
def SetFAux (t : Ty) (flags : Nat) :
    List String → AList → List String → Value → Option Err × AList
  | _, p, [], _ => (none, p)
  | _, p, [x], v =>
    match mergeStep flags p x v with
    | some p' => (none, p')
    | none =>
      match appendStep t flags p x v with
      | some p' => (none, p')
      | none => (none, insertA p x v)
  | pre, p, x :: y :: rest, v =>
    match lookupA p x with
    | none =>
      ((SetFAux t flags (pre ++ [x]) [] (y :: rest) v).1,
       insertA p x (.vMap (SetFAux t flags (pre ++ [x]) [] (y :: rest) v).2))
    | some q =>
      match asMap q with
      | some m =>
        ((SetFAux t flags (pre ++ [x]) m (y :: rest) v).1,
         insertA p x (.vMap (SetFAux t flags (pre ++ [x]) m (y :: rest) v).2))
      | none =>
        if hasFlag flags ForceThrough then
          ((SetFAux t flags (pre ++ [x]) [] (y :: rest) v).1,
           insertA p x (.vMap (SetFAux t flags (pre ++ [x]) [] (y :: rest) v).2))
        else (some (.badPath (pre ++ [x])), p)

/-- Deep set `SetF[T](db, xs, v, flags)` of xjson.go, returning
Go's error next to the updated tree. -/
def SetF (t : Ty) (db : AList) (xs : List String) (v : Value)
    (flags : Nat) : Option Err × AList :=
  SetFAux t flags [] db xs v

/-- Good-defaults wrapper `Set(db, xs, v) = SetF[any](db, xs, v, MergeMaps)`. -/
def Set (db : AList) (xs : List String) (v : Value) : Option Err × AList :=
  SetF .tAny db xs v MergeMaps

/-- Model of `strings.Split(path, sep)` for a one-character separator: splits
around every occurrence, keeping empty pieces. -/
def splitOn (sep : Char) : List Char → List (List Char)
  | [] => [[]]
  | c :: cs =>
    if c = sep then [] :: splitOn sep cs
    else
      match splitOn sep cs with
      | [] => [[c]]
      | g :: gs => (c :: g) :: gs

/-- The package's `splitPath(path) = strings.Split(path, "/")` (`os.PathSeparator`
on Unix). -/
def splitPath (path : String) : List String :=
  (splitOn '/' path.data).map String.mk

/-- Model of `strings.TrimSuffix(s, suffix)`. -/
def trimSuffix (s suffix : String) : String :=
  if suffix.data.isSuffixOf s.data then
    String.mk (s.data.take (s.data.length - suffix.data.length))
  else s

/-- Model of `strings.HasSuffix(s, suffix)`. -/
def hasSuffix (s suffix : String) : Bool :=
  suffix.data.isSuffixOf s.data

/-- Model of `strings.TrimRight(s, "/")`: drop the trailing run of slashes. -/
def trimRightSlash (s : String) : String :=
  String.mk (s.data.reverse.dropWhile (fun c => c = '/')).reverse

/-- Scan of `filepath.Ext`: walk the path from its last character
towards the front; stop empty at a separator, return the suffix from
the first dot met. `acc` holds the characters already passed, in
forward order; the argument is the reversed remaining path. -/
def extScan (acc : List Char) : List Char → List Char
  | [] => []
  | c :: cs =>
    if c = '/' then []
    else if c = '.' then c :: acc
    else extScan (c :: acc) cs

/-- Model of `filepath.Ext(path)` (Unix): the suffix beginning at the final dot
in the final element of the path, empty if there is no dot. -/
def filepathExt (path : String) : String :=
  String.mk (extScan [] path.data.reverse)

/-- The package's `TrimExt(fn) = strings.TrimSuffix(fn, filepath.Ext(fn))`. -/
def TrimExt (fn : String) : String :=
  trimSuffix fn (filepathExt fn)

/-- Element processing of `filepath.Clean` (Unix): drop empty and `.`
elements; `..` pops the previous real element, is dropped at the root,
and is kept only at the front of a relative path. `stack` holds the
kept elements in reverse order. -/
def cleanElems (rooted : Bool) : List (List Char) → List (List Char) →
    List (List Char)
  | stack, [] => stack.reverse
  | stack, e :: es =>
    if e.isEmpty || e = ['.'] then cleanElems rooted stack es
    else if e = ['.', '.'] then
      match stack with
      | [] =>
        if rooted then cleanElems rooted [] es
        else cleanElems rooted [e] es
      | top :: stack' =>
        if top = ['.', '.'] then cleanElems rooted (e :: top :: stack') es
        else cleanElems rooted stack' es
    else cleanElems rooted (e :: stack) es

/-- Join path elements with a slash. -/
def joinChar : List (List Char) → List Char
  | [] => []
  | [e] => e
  | e :: f :: es => e ++ '/' :: joinChar (f :: es)

/-- Model of `filepath.Clean(path)` (Unix): shortest lexical equivalent —
collapse multiple slashes, drop `.` elements, resolve `..` against the
preceding element (or the root), yielding `.` for an empty result. -/
def filepathClean (path : String) : String :=
  if path.data.isEmpty then "."
  else
    let rooted := path.data.head? = some '/'
    let body := joinChar (cleanElems rooted [] (splitOn '/' path.data))
    if rooted then
      if body.isEmpty then "/" else String.mk ('/' :: body)
    else
      if body.isEmpty then "." else String.mk body

/-- The package's `isRoot(ind, fn) = Clean(ind) == Clean(TrimExt(fn))`. -/
def isRoot (ind fn : String) : Bool :=
  filepathClean ind == filepathClean (TrimExt fn)

/-- Whether a cleaned path is rooted (`len > 0 && s[0] == '/'`). -/
def isSlashed (s : String) : Bool :=
  match s.data with
  | '/' :: _ => true
  | _ => false

/-- The path elements `filepath.Rel` scans over: none for the empty
string, a single empty element for `/`, the slash-separated pieces
otherwise (cleaned paths have no other empty pieces). -/
def relElems (s : String) : List String :=
  if s.data.isEmpty then []
  else if s = "/" then [""]
  else (splitOn '/' s.data).map String.mk

/-- Drop the common leading elements of two element lists, returning
both remainders (the two-pointer scan of `filepath.Rel`). -/
def dropCommon : List String → List String → List String × List String
  | b :: bs, t :: ts =>
    if b = t then dropCommon bs ts else (b :: bs, t :: ts)
  | bs, ts => (bs, ts)

/-- Join path elements with a slash. -/
def joinSlash : List String → String
  | [] => ""
  | [e] => e
  | e :: f :: es => e ++ "/" ++ joinSlash (f :: es)

/-- Model of `filepath.Rel(basepath, targpath)` (Unix, empty volume names):
clean both, return `.` when equal; fail when exactly one is rooted or
when the remaining base starts with `..`; otherwise climb out of the
remaining base elements with `..`s and descend into the remaining
target elements. -/
def filepathRel (basepath targpath : String) : Except Err String :=
  let base := filepathClean basepath
  let targ := filepathClean targpath
  if base = targ then .ok "."
  else
    let base' := if base = "." then "" else base
    if isSlashed base' != isSlashed targ then
      .error (.relError basepath targpath)
    else
      let bt := dropCommon (relElems base') (relElems targ)
      if bt.1.head? = some ".." then .error (.relError basepath targpath)
      else if bt.1.isEmpty then .ok (joinSlash bt.2)
      else .ok (joinSlash (bt.1.map (fun _ => "..") ++ bt.2))

/-- The package's `Store(ind, fn, y, db)`: relativize `fn` against `ind` (failing if
`filepath.Rel` does); in the root special case require `y` to be a map
and shallow-union it into `db`'s top level; otherwise strip the
extension from the relative path, split it into segments and `Set`.
Returned as Go's error next to the tree as left by the call. -/
def Store (ind fn : String) (y : Value) (db : AList) :
    Option Err × AList :=
  match filepathRel ind fn with
  | .error e => (some e, db)
  | .ok rel =>
    if isRoot ind fn then
      match asMap y with
      | none => (some .rootNotAMap, db)
      | some z => (none, unionInto db z)
    else
      Set db (splitPath (trimSuffix rel (filepathExt fn))) y

/-- The recognized file suffix, `Ext = ".json"`. -/
def Ext : String := ".json"

/-- The package's `GetPaths(path) = (dn, fn)`: the candidate directory and candidate
file of an entry point — strip the suffix (and trailing slashes) for
`dn` when the input ends with it, append the suffix for `fn`
otherwise. -/
def GetPaths (path : String) : String × String :=
  if hasSuffix path Ext then
    (trimSuffix (trimRightSlash path) Ext, path)
  else (path, path ++ Ext)

/-- The filesystem as the ingestion code observes it: the regular
files in `filepath.Walk` visiting order (lexical), each carrying its
parsed JSON content, or `none` for a file whose bytes do not decode.
Directories exist implicitly as prefixes of file paths. -/
abbrev FS := List (String × Option Value)

/-- Lookup of a file by exact path. -/
def lookupFS : FS → String → Option (Option Value)
  | [], _ => none
  | (p, c) :: rest, fn => if p = fn then some c else lookupFS rest fn

/-- Model of `ReadFile(fn)` over the abstracted filesystem: `os.ErrNotExist`
when the path is absent, a decode error when the bytes do not parse,
the parsed value otherwise. -/
def ReadFileM (fs : FS) (fn : String) : Except Err Value :=
  match lookupFS fs fn with
  | none => .error (.notExist fn)
  | some none => .error (.decodeError fn)
  | some (some v) => .ok v

/-- Model of `ReadAndStoreFile(ind, fn, db)`: read and decode `fn`, then
`Store` it into `db` relative to `ind`. -/
def ReadAndStoreFileM (fs : FS) (ind fn : String) (db : AList) :
    Option Err × AList :=
  match ReadFileM fs fn with
  | .error e => (some e, db)
  | .ok v => Store ind fn v db

/-- The body of the `filepath.Walk` callback of `ReadAndStoreDir`,
folded over the visited files in order: each file is decoded and
stored, and the walk stops at the first error. -/
def readAndStoreEntries (ind : String) :
    AList → FS → Option Err × AList
  | db, [] => (none, db)
  | db, (p, none) :: _ => (some (.decodeError p), db)
  | db, (p, some v) :: rest =>
    match Store ind p v db with
    | (none, db') => readAndStoreEntries ind db' rest
    | (some e, db') => (some e, db')

/-- Whether `p` lies strictly under directory `dn`. -/
def isUnder (dn p : String) : Bool :=
  (dn ++ "/").data.isPrefixOf p.data

/-- The files `filepath.Walk(ind, ...)` visits: the walk root itself
when it is a file, and every file under it. -/
def walkFiles (fs : FS) (ind : String) : FS :=
  fs.filter (fun e => e.1 == ind || isUnder ind e.1)

/-- Model of `ReadAndStoreDir(ind, db)`: `os.ErrNotExist` when the walk root
does not exist (the abstract filesystem has no empty directories),
otherwise fold the visited files into `db` in walk order. -/
def ReadAndStoreDirM (fs : FS) (ind : String) (db : AList) :
    Option Err × AList :=
  match walkFiles fs ind with
  | [] => (some (.notExist ind), db)
  | e :: es => readAndStoreEntries ind db (e :: es)

/-- Model of `errors.Is(err, os.ErrNotExist)` on the modelled errors. -/
def isNotExist : Err → Bool
  | .notExist _ => true
  | _ => false

/-- The package's `DoReadAndStore(path, db)`: compute the candidate file and
directory, ingest the file (tolerating its absence), then ingest the
directory into the same tree (tolerating its absence), and combine
the two errors when both steps failed with absence. -/
def DoReadAndStore (fs : FS) (path : String) (db : AList) :
    Option Err × AList :=
  match GetPaths path with
  | (dn, fn) =>
    match ReadAndStoreFileM fs dn fn db with
    | (some e0, db1) =>
      if isNotExist e0 then
        match ReadAndStoreDirM fs dn db1 with
        | (some e1, db2) =>
          if isNotExist e1 then (some (.joined e0 e1), db2)
          else (some e1, db2)
        | (none, db2) => (none, db2)
      else (some e0, db1)
    | (none, db1) =>
      match ReadAndStoreDirM fs dn db1 with
      | (some e1, db2) =>
        if isNotExist e1 then (none, db2) else (some e1, db2)
      | (none, db2) => (none, db2)

/-- The package's `Read(path)`: load an entry point into a fresh empty tree. -/
def Read (fs : FS) (path : String) : Option Err × AList :=
  DoReadAndStore fs path []

/-- The nested singleton tree that a deep set builds along a path none
of whose segments already exists. -/
def nestMap : List String → Value → AList
  | [], _ => []
  | [x], v => [(x, v)]
  | x :: y :: rest, v => [(x, .vMap (nestMap (y :: rest) v))]

theorem lookupA_insertA_self (p : AList) (x : String) (v : Value) :
    lookupA (insertA p x v) x = some v := by
  induction p with
  | nil => simp [insertA, lookupA]
  | cons kv rest ih =>
    obtain ⟨k, w⟩ := kv
    by_cases h : k = x
    · simp [insertA, lookupA, h]
    · simp [insertA, lookupA, h, ih]

theorem lookupA_insertA_ne (p : AList) (x y : String) (v : Value)
    (h : y ≠ x) : lookupA (insertA p x v) y = lookupA p y := by
  induction p with
  | nil => simp [insertA, lookupA, Ne.symm h]
  | cons kv rest ih =>
    obtain ⟨k, w⟩ := kv
    by_cases hk : k = x
    · subst hk
      simp [insertA, lookupA, Ne.symm h]
    · simp only [insertA, if_neg hk]
      by_cases hy : k = y
      · simp [lookupA, hy]
      · simp [lookupA, hy, ih]

theorem insertA_self_eq (p : AList) (x : String) (v : Value)
    (h : lookupA p x = some v) : insertA p x v = p := by
  induction p with
  | nil => simp [lookupA] at h
  | cons kv rest ih =>
    obtain ⟨k, w⟩ := kv
    by_cases hk : k = x
    · subst hk
      simp [lookupA] at h
      simp [insertA, h]
    · simp [lookupA, hk] at h
      simp [insertA, hk, ih h]

theorem lookupA_eq_none (w : AList) (k : String)
    (h : k ∉ w.map Prod.fst) : lookupA w k = none := by
  induction w with
  | nil => rfl
  | cons kv rest ih =>
    obtain ⟨a, b⟩ := kv
    simp only [List.map_cons, List.mem_cons] at h
    push_neg at h
    simp [lookupA, Ne.symm h.1, ih h.2]

theorem unionInto_cons (q : AList) (a : String) (b : Value) (w : AList) :
    unionInto q ((a, b) :: w) = unionInto (insertA q a b) w := rfl

theorem lookupA_unionInto_none (q w : AList) (k : String)
    (h : lookupA w k = none) :
    lookupA (unionInto q w) k = lookupA q k := by
  induction w generalizing q with
  | nil => rfl
  | cons kv w' ih =>
    obtain ⟨a, b⟩ := kv
    rw [unionInto_cons]
    by_cases hk : a = k
    · subst hk
      simp [lookupA] at h
    · simp only [lookupA, if_neg hk] at h
      rw [ih _ h, lookupA_insertA_ne _ _ _ _ (Ne.symm hk)]

theorem lookupA_unionInto_some (q w : AList) (k : String) (u : Value)
    (hw : (w.map Prod.fst).Nodup) (h : lookupA w k = some u) :
    lookupA (unionInto q w) k = some u := by
  induction w generalizing q with
  | nil => simp [lookupA] at h
  | cons kv w' ih =>
    obtain ⟨a, b⟩ := kv
    simp only [List.map_cons, List.nodup_cons] at hw
    rw [unionInto_cons]
    by_cases hk : a = k
    · subst hk
      simp [lookupA] at h
      subst h
      rw [lookupA_unionInto_none _ _ _ (lookupA_eq_none w' a hw.1)]
      exact lookupA_insertA_self q a b
    · simp only [lookupA, if_neg hk] at h
      exact ih _ hw.2 h

theorem mergeStep_eq_none_right (flags : Nat) (p : AList) (x : String)
    (v : Value) (h : asMap (lookupD p x) = none) :
    mergeStep flags p x v = none := by
  unfold mergeStep
  split
  · rw [h]
    cases asMap v <;> rfl
  · rfl

theorem appendStep_eq_none_right (t : Ty) (flags : Nat) (p : AList)
    (x : String) (v : Value) (h : asArr t (lookupD p x) = none) :
    appendStep t flags p x v = none := by
  unfold appendStep
  split
  · rw [h]
    cases asArr t v <;> rfl
  · rfl

theorem setFAux_empty_tree (t : Ty) (flags : Nat) (v : Value) :
    ∀ (xs : List String), xs ≠ [] → ∀ (pre : List String),
      SetFAux t flags pre [] xs v = (none, nestMap xs v)
  | [], h, _ => absurd rfl h
  | [x], _, pre => by
    have hm : mergeStep flags [] x v = none :=
      mergeStep_eq_none_right flags [] x v rfl
    have ha : appendStep t flags [] x v = none :=
      appendStep_eq_none_right t flags [] x v rfl
    simp [SetFAux, hm, ha, insertA, nestMap]
  | x :: y :: rest, _, pre => by
    have ih := setFAux_empty_tree t flags v (y :: rest) (by simp) (pre ++ [x])
    simp [SetFAux, lookupA, ih, insertA, nestMap]

theorem getAux_nestMap (t : Ty) (v : Value) :
    ∀ (xs : List String), xs ≠ [] → ∀ (pre : List String),
      GetAux t pre (nestMap xs v) xs =
        if assertTy t v then .ok v
        else .error (.badType (pre ++ xs) (typeOf v) t)
  | [], h, _ => absurd rfl h
  | [x], _, pre => by
    simp [GetAux, nestMap, lookupA]
  | x :: y :: rest, _, pre => by
    have ih := getAux_nestMap t v (y :: rest) (by simp) (pre ++ [x])
    simp [GetAux, nestMap, lookupA, asMap, ih, List.append_assoc]

/-- C1: storing `v` at a non-empty path `p` in a fresh empty tree with
`Set` (that is, `SetF` with `MergeMaps`) and then reading the path back
with `Get[T]` yields exactly `v` when the requested type `T` matches
`v`'s dynamic type (in the sense of a Go type assertion), and the
`ErrBadType` failure reporting the full path, the actual dynamic type
and the expected type otherwise. -/
theorem c1_set_get_roundtrip (t : Ty) (p : List String) (hp : p ≠ [])
    (v : Value) (db' : AList) (hset : Set [] p v = (none, db')) :
    Get t db' p =
      if assertTy t v then .ok v
      else .error (.badType p (typeOf v) t) := by
  have h := setFAux_empty_tree .tAny MergeMaps v p hp []
  rw [Set, SetF, h] at hset
  have hdb : db' = nestMap p v := by
    have := congrArg Prod.snd hset
    simpa using this.symm
  subst hdb
  have hg := getAux_nestMap t v p hp []
  simpa [Get] using hg

/-- Witness for C1 at `p = ["a"]`, `v = "x"`, `T = string`. -/
theorem c1_set_get_roundtrip_witness :
    Get .tStr [("a", Value.vStr "x")] ["a"] =
      if assertTy .tStr (.vStr "x") then .ok (.vStr "x")
      else .error (.badType ["a"] (typeOf (.vStr "x")) .tStr) :=
  c1_set_get_roundtrip .tStr ["a"] (by simp) (.vStr "x")
    [("a", Value.vStr "x")] rfl

theorem asMap_eq_some {q : Value} {m : AList} (h : asMap q = some m) :
    q = .vMap m := by
  cases q <;> simp [asMap] at h
  rw [h]

theorem getStAux_state (t : Ty) :
    ∀ (xs pre : List String) (p : AList), (GetStAux t pre p xs).2 = p
  | [], _, _ => rfl
  | [_], _, _ => rfl
  | x :: y :: rest, pre, p => by
    cases hl : lookupA p x with
    | none => simp [GetStAux, hl]
    | some q =>
      cases hq : asMap q with
      | none => simp [GetStAux, hl, hq]
      | some m =>
        have hqm := asMap_eq_some hq
        subst hqm
        simp only [GetStAux, hl, hq]
        rw [getStAux_state t (y :: rest) (pre ++ [x]) m]
        exact insertA_self_eq p x (.vMap m) hl

theorem getStAux_result (t : Ty) :
    ∀ (xs pre : List String) (p : AList),
      (GetStAux t pre p xs).1 = GetAux t pre p xs
  | [], _, _ => rfl
  | [_], _, _ => rfl
  | x :: y :: rest, pre, p => by
    cases hl : lookupA p x with
    | none => simp [GetStAux, GetAux, hl]
    | some q =>
      cases hq : asMap q with
      | none => simp [GetStAux, GetAux, hl, hq]
      | some m =>
        have ih := getStAux_result t (y :: rest) (pre ++ [x]) m
        simp [GetStAux, GetAux, hl, hq, ih]

/-- C8: `Get` never mutates the tree — in the state-threaded embedding
of the walk, for every tree, path and requested type, the tree coming
out of the call (whether it succeeds, fails with `ErrBadPath` or fails
with `ErrBadType`) is identical to the tree going in, and the result is
that of `Get`. -/
theorem c8_get_never_mutates (t : Ty) (db : AList) (xs : List String) :
    (GetSt t db xs).2 = db ∧ (GetSt t db xs).1 = Get t db xs :=
  ⟨getStAux_state t xs [] db, getStAux_result t xs [] db⟩

/-- C7: `SetF` on an empty path is a no-op success for every tree,
value and flag combination: no error, tree untouched. -/
theorem c7_empty_path_noop (t : Ty) (db : AList) (v : Value)
    (flags : Nat) : SetF t db [] v flags = (none, db) := rfl

theorem setFAux_forceThrough_ok (t : Ty) (flags : Nat) (v : Value)
    (hft : hasFlag flags ForceThrough = true) :
    ∀ (xs pre : List String) (p : AList),
      (SetFAux t flags pre p xs v).1 = none
  | [], _, _ => rfl
  | [x], pre, p => by
    cases hm : mergeStep flags p x v with
    | some p' => simp [SetFAux, hm]
    | none =>
      cases ha : appendStep t flags p x v with
      | some p' => simp [SetFAux, hm, ha]
      | none => simp [SetFAux, hm, ha]
  | x :: y :: rest, pre, p => by
    cases hl : lookupA p x with
    | none =>
      simp [SetFAux, hl,
        setFAux_forceThrough_ok t flags v hft (y :: rest) (pre ++ [x]) []]
    | some q =>
      cases hq : asMap q with
      | some m =>
        simp [SetFAux, hl, hq,
          setFAux_forceThrough_ok t flags v hft (y :: rest) (pre ++ [x]) m]
      | none =>
        simp [SetFAux, hl, hq, hft,
          setFAux_forceThrough_ok t flags v hft (y :: rest) (pre ++ [x]) []]

/-- C10: with the `ForceThrough` bit set, `SetF` succeeds on every
tree, path, value and combination of the other flags — its only error
branch is unreachable. -/
theorem c10_forcethrough_always_succeeds (t : Ty) (flags : Nat)
    (db : AList) (xs : List String) (v : Value)
    (hft : hasFlag flags ForceThrough = true) :
    (SetF t db xs v flags).1 = none :=
  setFAux_forceThrough_ok t flags v hft xs [] db

/-- Witness for C10: a path whose intermediate segment holds a string,
forced through. -/
theorem c10_forcethrough_always_succeeds_witness :
    (SetF .tAny [("a", Value.vStr "s")] ["a", "b"] (.vNum 1) 4).1 =
      none :=
  c10_forcethrough_always_succeeds .tAny 4 [("a", Value.vStr "s")]
    ["a", "b"] (.vNum 1) (by decide)

theorem mergeStep_eq_none_flag (flags : Nat) (p : AList) (x : String)
    (v : Value) (h : hasFlag flags MergeMaps = false) :
    mergeStep flags p x v = none := by
  simp [mergeStep, h]

theorem mergeStep_eq_none_left (flags : Nat) (p : AList) (x : String)
    (v : Value) (h : asMap v = none) : mergeStep flags p x v = none := by
  unfold mergeStep
  split
  · rw [h]
  · rfl

theorem appendStep_eq_none_flag (t : Ty) (flags : Nat) (p : AList)
    (x : String) (v : Value) (h : hasFlag flags AppendArrays = false) :
    appendStep t flags p x v = none := by
  simp [appendStep, h]

theorem appendStep_eq_none_left (t : Ty) (flags : Nat) (p : AList)
    (x : String) (v : Value) (h : asArr t v = none) :
    appendStep t flags p x v = none := by
  unfold appendStep
  split
  · rw [h]
  · rfl

/-- C2: precedence at the final segment of a non-empty path (the
`[x]` configuration of the `SetF` walk, under any consumed prefix and
current map). (1) With `MergeMaps` set, a map value merged over an
existing map is shallow-unioned into it — new keys win on collision
and the non-colliding keys of both sides survive; (2) with
`AppendArrays` set and both sides `[]T` slices, the key is replaced by
the concatenation existing-then-new; (3) otherwise — including when a
flag bit is set but its precondition fails — the key is unconditionally
overwritten. Each branch succeeds. -/
theorem c2_final_segment_precedence (t : Ty) (flags : Nat)
    (pre : List String) (p : AList) (x : String) (v : Value) :
    (∀ w q, hasFlag flags MergeMaps = true → v = .vMap w →
       lookupA p x = some (.vMap q) →
       SetFAux t flags pre p [x] v =
         (none, insertA p x (.vMap (unionInto q w))) ∧
       ((w.map Prod.fst).Nodup →
         (∀ k u, lookupA w k = some u →
            lookupA (unionInto q w) k = some u) ∧
         (∀ k, lookupA w k = none →
            lookupA (unionInto q w) k = lookupA q k)))
  ∧ (∀ w q, hasFlag flags AppendArrays = true → v = .vArr t w →
       lookupA p x = some (.vArr t q) →
       SetFAux t flags pre p [x] v =
         (none, insertA p x (.vArr t (q ++ w))))
  ∧ ((hasFlag flags MergeMaps = false ∨ asMap v = none ∨
        asMap (lookupD p x) = none) →
     (hasFlag flags AppendArrays = false ∨ asArr t v = none ∨
        asArr t (lookupD p x) = none) →
       SetFAux t flags pre p [x] v = (none, insertA p x v)) := by
  refine ⟨fun w q hMM hv hl => ?_, fun w q hAA hv hl => ?_,
    fun hMM hAA => ?_⟩
  · subst hv
    constructor
    · simp [SetFAux, mergeStep, hMM, asMap, lookupD, hl]
    · intro hnodup
      exact ⟨fun k u h => lookupA_unionInto_some q w k u hnodup h,
        fun k h => lookupA_unionInto_none q w k h⟩
  · subst hv
    have hm : mergeStep flags p x (.vArr t w) = none :=
      mergeStep_eq_none_left _ _ _ _ rfl
    simp [SetFAux, hm, appendStep, hAA, asArr, lookupD, hl]
  · have hm : mergeStep flags p x v = none := by
      rcases hMM with h | h | h
      · exact mergeStep_eq_none_flag _ _ _ _ h
      · exact mergeStep_eq_none_left _ _ _ _ h
      · exact mergeStep_eq_none_right _ _ _ _ h
    have ha : appendStep t flags p x v = none := by
      rcases hAA with h | h | h
      · exact appendStep_eq_none_flag _ _ _ _ _ h
      · exact appendStep_eq_none_left _ _ _ _ _ h
      · exact appendStep_eq_none_right _ _ _ _ _ h
    simp [SetFAux, hm, ha]

/-- Witness for C2, merge branch: merging `{a:9, b:2}` over `{a:1}`. -/
theorem c2_final_segment_precedence_witness :
    SetFAux .tAny 1 [] [("x", Value.vMap [("a", Value.vNum 1)])] ["x"]
        (.vMap [("a", Value.vNum 9), ("b", Value.vNum 2)]) =
      (none, insertA [("x", Value.vMap [("a", Value.vNum 1)])] "x"
        (.vMap (unionInto [("a", Value.vNum 1)]
          [("a", Value.vNum 9), ("b", Value.vNum 2)]))) :=
  ((c2_final_segment_precedence .tAny 1 []
      [("x", Value.vMap [("a", Value.vNum 1)])] "x"
      (.vMap [("a", Value.vNum 9), ("b", Value.vNum 2)])).1
    [("a", Value.vNum 9), ("b", Value.vNum 2)] [("a", Value.vNum 1)]
    (by decide) rfl rfl).1

/-- C3: behavior at an intermediate (non-final) segment of the `SetF`
walk (the `x :: y :: rest` configuration, under any consumed prefix and
current map): an absent key gets a fresh empty map and the walk
descends into it; an existing submap is descended into; an existing
non-map value is replaced by a fresh empty map and descended into when
`ForceThrough` is set (the prior value is lost), and otherwise the call
fails with `ErrBadPath` wrapping the prefix up to and including this
segment, leaving the tree as it was. -/
theorem c3_intermediate_segment (t : Ty) (flags : Nat)
    (pre : List String) (p : AList) (x y : String) (rest : List String)
    (v : Value) :
    (lookupA p x = none →
       SetFAux t flags pre p (x :: y :: rest) v =
         ((SetFAux t flags (pre ++ [x]) [] (y :: rest) v).1,
          insertA p x
            (.vMap (SetFAux t flags (pre ++ [x]) [] (y :: rest) v).2)))
  ∧ (∀ m, lookupA p x = some (.vMap m) →
       SetFAux t flags pre p (x :: y :: rest) v =
         ((SetFAux t flags (pre ++ [x]) m (y :: rest) v).1,
          insertA p x
            (.vMap (SetFAux t flags (pre ++ [x]) m (y :: rest) v).2)))
  ∧ (∀ q, lookupA p x = some q → asMap q = none →
       hasFlag flags ForceThrough = true →
       SetFAux t flags pre p (x :: y :: rest) v =
         ((SetFAux t flags (pre ++ [x]) [] (y :: rest) v).1,
          insertA p x
            (.vMap (SetFAux t flags (pre ++ [x]) [] (y :: rest) v).2)))
  ∧ (∀ q, lookupA p x = some q → asMap q = none →
       hasFlag flags ForceThrough = false →
       SetFAux t flags pre p (x :: y :: rest) v =
         (some (.badPath (pre ++ [x])), p)) := by
  refine ⟨fun h => by simp [SetFAux, h],
    fun m h => by simp [SetFAux, h, asMap],
    fun q h hq hft => by simp [SetFAux, h, hq, hft],
    fun q h hq hft => by simp [SetFAux, h, hq, hft]⟩

/-- Witness for C3, `BadPath` branch: a string sits at the
intermediate segment and `ForceThrough` is not set. -/
theorem c3_intermediate_segment_witness :
    SetFAux .tAny 0 [] [("a", Value.vStr "s")] ["a", "b"] (.vNum 1) =
      (some (.badPath ["a"]), [("a", Value.vStr "s")]) :=
  (c3_intermediate_segment .tAny 0 [] [("a", Value.vStr "s")] "a" "b"
    [] (.vNum 1)).2.2.2 (.vStr "s") rfl rfl (by decide)

/-- Where a walk stands after consuming a prefix of segments: descend
through existing submaps, `none` as soon as a key is absent or a
non-map is hit. -/
def walksTo : AList → List String → Option AList
  | p, [] => some p
  | p, z :: rest =>
    match lookupA p z with
    | none => none
    | some u =>
      match asMap u with
      | some r => walksTo r rest
      | none => none

theorem getAux_walksTo (t : Ty) :
    ∀ (pref : List String) (p q : AList) (pre : List String)
      (x : String) (suff : List String), walksTo p pref = some q →
      GetAux t pre p (pref ++ x :: suff) =
        GetAux t (pre ++ pref) q (x :: suff)
  | [], p, q, pre, x, suff, h => by
    simp [walksTo] at h
    subst h
    simp
  | z :: pref', p, q, pre, x, suff, h => by
    cases hl : lookupA p z with
    | none => simp [walksTo, hl] at h
    | some u =>
      cases hm : asMap u with
      | none => simp [walksTo, hl, hm] at h
      | some r =>
        simp only [walksTo, hl, hm] at h
        have ih := getAux_walksTo t pref' r q (pre ++ [z]) x suff h
        cases hp : pref' ++ x :: suff with
        | nil => simp at hp
        | cons a l =>
          have hgoal : (z :: pref') ++ x :: suff = z :: a :: l := by
            simp [hp]
          rw [hgoal]
          simp only [GetAux, hl, hm]
          rw [← hp, ih]
          congr 1
          simp

/-- C4: `Get`'s error contract. An empty path always fails with
`ErrBadPath` (wrapping the empty path), whatever the tree holds. When
the walk has descended to the map `q` and the next segment `x` is
non-final, an absent key or a non-map value at `x` fails with
`ErrBadPath` wrapping the segments up to and including `x`. When `x`
is the final segment and the value found does not type-assert to the
requested `T`, the call fails with `ErrBadType` reporting the full
path, the actual dynamic type and the expected type. -/
theorem c4_get_error_contract (t : Ty) (db : AList) :
    (Get t db [] = .error (.badPath []))
  ∧ (∀ pref x suff q, suff ≠ [] → walksTo db pref = some q →
       (lookupA q x = none ∨
        ∃ u, lookupA q x = some u ∧ asMap u = none) →
       Get t db (pref ++ x :: suff) =
         .error (.badPath (pref ++ [x])))
  ∧ (∀ pref x q u, walksTo db pref = some q → lookupA q x = some u →
       assertTy t u = false →
       Get t db (pref ++ [x]) =
         .error (.badType (pref ++ [x]) (typeOf u) t)) := by
  refine ⟨rfl, fun pref x suff q hsuff hw hbad => ?_,
    fun pref x q u hw hl ha => ?_⟩
  · have h := getAux_walksTo t pref db q [] x suff hw
    rw [Get, h]
    cases suff with
    | nil => exact absurd rfl hsuff
    | cons s suff' =>
      rcases hbad with hnone | ⟨u, hu, hum⟩
      · simp [GetAux, hnone]
      · simp [GetAux, hu, hum]
  · have h := getAux_walksTo t pref db q [] x [] hw
    rw [Get, h]
    simp [GetAux, hl, ha]

/-- Witness for C4: non-final segment holding a string. -/
theorem c4_get_error_contract_witness :
    Get .tStr [("a", Value.vStr "s")] ["a", "b"] =
      .error (.badPath ["a"]) :=
  (c4_get_error_contract .tStr [("a", Value.vStr "s")]).2.1 [] "a"
    ["b"] [("a", Value.vStr "s")] (by simp) rfl
    (Or.inr ⟨.vStr "s", rfl, rfl⟩)

/-- C9: when the key at the final segment of a non-empty path is
absent from the map the walk has reached, `Get` fails with
`ErrBadPath` wrapping the full path — in particular never with
`ErrBadType`: the absence check precedes the type check at the last
segment too. -/
theorem c9_final_absent_badpath (t : Ty) (db : AList)
    (pref : List String) (x : String) (q : AList)
    (hw : walksTo db pref = some q) (habs : lookupA q x = none) :
    Get t db (pref ++ [x]) = .error (.badPath (pref ++ [x])) := by
  have h := getAux_walksTo t pref db q [] x [] hw
  rw [Get, h]
  simp [GetAux, habs]

/-- Witness for C9: absent final key. -/
theorem c9_final_absent_badpath_witness :
    Get .tAny [] ["foo"] = .error (.badPath ["foo"]) :=
  c9_final_absent_badpath .tAny [] [] "foo" [] rfl rfl

/-- C5 counterexample: at `ind = ".."`, `fn = "...json"` the file path
minus its suffix cleans to the base directory itself — the claim's
root condition holds — and the value is not a map, yet `Store` fails
with `filepath.Rel`'s error, computed before the root check, not with
the dedicated root error. -/
theorem c5_store_root_counterexample :
    isRoot ".." "...json" = true ∧
    asMap (.vStr "bar") = none ∧
    Store ".." "...json" (.vStr "bar") [] =
      (some (.relError ".." "...json"), []) ∧
    some (Err.relError ".." "...json") ≠ some Err.rootNotAMap :=
  ⟨rfl, rfl, rfl, by decide⟩

/-- C5 (amended): provided `filepath.Rel(ind, fn)` succeeds, when the
file path minus its suffix denotes the same location as the base
directory, `Store` fails with the dedicated root error when the
decoded value is not a map — leaving the tree unchanged — and
otherwise shallow-unions the map's entries into the tree's top level,
new keys overwriting colliding old ones, the non-colliding keys of
both sides surviving. -/
theorem c5_store_root (ind fn : String) (y : Value) (db : AList)
    (rp : String) (hrel : filepathRel ind fn = .ok rp)
    (hroot : isRoot ind fn = true) :
    (asMap y = none → Store ind fn y db = (some .rootNotAMap, db))
  ∧ (∀ z, y = .vMap z → Store ind fn y db = (none, unionInto db z) ∧
      ((z.map Prod.fst).Nodup →
        (∀ k u, lookupA z k = some u →
           lookupA (unionInto db z) k = some u) ∧
        (∀ k, lookupA z k = none →
           lookupA (unionInto db z) k = lookupA db k))) := by
  constructor
  · intro hy
    simp [Store, hrel, hroot, hy]
  · intro z hz
    subst hz
    refine ⟨by simp [Store, hrel, hroot, asMap], fun hnodup => ⟨?_, ?_⟩⟩
    · exact fun k u h => lookupA_unionInto_some db z k u hnodup h
    · exact fun k h => lookupA_unionInto_none db z k h

/-- Witness for amended C5 at the spec's example paths. -/
theorem c5_store_root_witness :
    Store "path/to/db/" "path/to/db.json" (.vStr "bar") [] =
      (some .rootNotAMap, []) :=
  (c5_store_root "path/to/db/" "path/to/db.json" (.vStr "bar") []
    "../db.json" rfl rfl).1 rfl

/-- C6: `DoReadAndStore` ingests the candidate file first and then the
candidate directory into the tree the file ingestion produced (so
directory content can override file content at the same key path); a
missing file or a missing directory is individually tolerated when the
other side succeeds; and when both fail with absence the two errors
are combined into one. -/
theorem c6_entry_point_order_and_tolerance (fs : FS) (path : String)
    (db db1 db2 : AList) (dn fn : String) (e0 e1 : Err)
    (hp : GetPaths path = (dn, fn)) :
    ((ReadAndStoreFileM fs dn fn db = (none, db1)) →
       (ReadAndStoreDirM fs dn db1 = (none, db2)) →
       DoReadAndStore fs path db = (none, db2))
  ∧ ((ReadAndStoreFileM fs dn fn db = (some e0, db1)) →
       isNotExist e0 = true →
       (ReadAndStoreDirM fs dn db1 = (none, db2)) →
       DoReadAndStore fs path db = (none, db2))
  ∧ ((ReadAndStoreFileM fs dn fn db = (none, db1)) →
       (ReadAndStoreDirM fs dn db1 = (some e1, db2)) →
       isNotExist e1 = true →
       DoReadAndStore fs path db = (none, db2))
  ∧ ((ReadAndStoreFileM fs dn fn db = (some e0, db1)) →
       isNotExist e0 = true →
       (ReadAndStoreDirM fs dn db1 = (some e1, db2)) →
       isNotExist e1 = true →
       DoReadAndStore fs path db = (some (.joined e0 e1), db2)) := by
  refine ⟨fun h0 h1 => ?_, fun h0 he0 h1 => ?_, fun h0 h1 he1 => ?_,
    fun h0 he0 h1 he1 => ?_⟩ <;>
  simp [DoReadAndStore, hp, h0, h1, *]

/-- The directory-beats-file example of the spec: `root.json` holds
`{"foo": "bar"}`, `root/foo.json` holds `"baz"`. -/
def fsExample : FS :=
  [("root.json", some (.vMap [("foo", .vStr "bar")])),
   ("root/foo.json", some (.vStr "baz"))]

/-- Witness for C6: loading the entry point `root` over `fsExample`
ingests the file first and the directory second, so the directory's
value wins at the colliding path. -/
theorem c6_entry_point_order_and_tolerance_witness :
    DoReadAndStore fsExample "root" [] =
      (none, [("foo", Value.vStr "baz")]) :=
  (c6_entry_point_order_and_tolerance fsExample "root" []
    [("foo", Value.vStr "bar")] [("foo", Value.vStr "baz")] "root"
    "root.json" .rootNotAMap .rootNotAMap rfl).1 rfl rfl

end Xjson
